import Mathlib

/-!
Shallow embedding of the witness-generation core of `zk_evm`:

* `src/evm_arithmetization/src/memory_continuation/memory_continuation_stark.rs`
  (`mem_before_values_to_rows`, `ctl_data`, `ctl_data_memory`,
  `MemoryContinuationStark::generate_trace`),
* `src/evm/src/poseidon_sponge/columns.rs`
  (`PoseidonSpongeColumnsView`, the flat-array conversions, `make_col_map`),
* `src/src/generation/mod.rs` (`generate_traces`: the interpreter driver
  loop and the assembly of `PublicValues`).

Field elements are modelled as natural numbers under the canonical
embeddings `F::from_canonical_u32` / `F::from_canonical_usize`
(`F::ZERO` is `0`, `F::ONE` is `1`); the structural claims checked here
do not depend on reduction modulo the field order.
-/

namespace ZkEvm

/-- Executable model of Rust's `usize::is_power_of_two`: true exactly on
the powers of two (in particular false at `0`). -/
def is_power_of_two (n : Nat) : Bool :=
  (List.range (n + 1)).any fun k => n == 2 ^ k

theorem is_power_of_two_iff (n : Nat) : is_power_of_two n = true ↔ ∃ k, n = 2 ^ k := by
  unfold is_power_of_two
  simp only [List.any_eq_true, List.mem_range, beq_iff_eq]
  constructor
  · rintro ⟨k, _, hk⟩
    exact ⟨k, hk⟩
  · rintro ⟨k, rfl⟩
    exact ⟨k, Nat.lt_succ_of_lt (Nat.lt_two_pow k), rfl⟩

/-- Doubling loop behind `next_power_of_two`, with explicit fuel so that the
recursion is structural; `fuel = n` always suffices (see the lemmas below). -/
def next_power_of_two_aux (n : Nat) : Nat → Nat → Nat
  | 0, power => power
  | fuel + 1, power => if power < n then next_power_of_two_aux n fuel (power * 2) else power

/-- Executable model of Rust's `usize::next_power_of_two`: the least power of
two that is `≥ n` (and `1` at `0`). -/
def next_power_of_two (n : Nat) : Nat :=
  next_power_of_two_aux n n 1

theorem next_power_of_two_aux_pow (n fuel j : Nat) :
    ∃ m, next_power_of_two_aux n fuel (2 ^ j) = 2 ^ m := by
  induction fuel generalizing j with
  | zero => exact ⟨j, rfl⟩
  | succ fuel ih =>
    unfold next_power_of_two_aux
    by_cases h : 2 ^ j < n
    · simpa [h, ← pow_succ] using ih (j + 1)
    · exact ⟨j, by simp [h]⟩

theorem next_power_of_two_aux_le (n fuel power : Nat) (h : n ≤ 2 ^ fuel * power) :
    n ≤ next_power_of_two_aux n fuel power := by
  induction fuel generalizing power with
  | zero => simpa using h
  | succ fuel ih =>
    unfold next_power_of_two_aux
    by_cases hlt : power < n
    · simp only [hlt, if_true]
      refine ih (power * 2) ?_
      have heq : 2 ^ fuel * (power * 2) = 2 ^ (fuel + 1) * power := by ring
      rw [heq]
      exact h
    · simpa [hlt] using Nat.le_of_not_lt hlt

theorem le_next_power_of_two (n : Nat) : n ≤ next_power_of_two n := by
  refine next_power_of_two_aux_le n n 1 ?_
  have := Nat.lt_two_pow n
  omega

theorem next_power_of_two_pow (n : Nat) : ∃ m, next_power_of_two n = 2 ^ m := by
  simpa using next_power_of_two_aux_pow n n 0

theorem next_power_of_two_aux_pow_fixed (k : Nat) :
    ∀ fuel j, j ≤ k → k - j ≤ fuel → next_power_of_two_aux (2 ^ k) fuel (2 ^ j) = 2 ^ k := by
  intro fuel
  induction fuel with
  | zero =>
    intro j hj hfj
    have : j = k := by omega
    subst this
    rfl
  | succ fuel ih =>
    intro j hj hfj
    unfold next_power_of_two_aux
    by_cases h : 2 ^ j < 2 ^ k
    · have hjk : j < k := by
        by_contra hc
        have : k = j := by omega
        subst this
        exact absurd h (lt_irrefl _)
      have h2 : (2 : Nat) ^ j * 2 = 2 ^ (j + 1) := (pow_succ 2 j).symm
      rw [if_pos h, h2]
      exact ih (j + 1) (by omega) (by omega)
    · have : (2 : Nat) ^ j = 2 ^ k :=
        Nat.le_antisymm (Nat.pow_le_pow_right (by omega) hj) (Nat.le_of_not_lt h)
      simp [h, this]

/-- On a power of two, `next_power_of_two` is the identity. -/
theorem next_power_of_two_of_pow (k : Nat) : next_power_of_two (2 ^ k) = 2 ^ k := by
  have h1 : (1 : Nat) = 2 ^ 0 := rfl
  unfold next_power_of_two
  rw [h1]
  exact next_power_of_two_aux_pow_fixed k (2 ^ k) 0 (Nat.zero_le k)
    (by have := Nat.lt_two_pow k; omega)

/-!
Column layout of the memory-continuation table.

Modelled from the spec: the columns module
`evm_arithmetization/src/memory_continuation/columns.rs` is not under
`src/`; the spec fixes one filter column, three address columns and
eight 32-bit value limbs, and the source writes the limbs at indices
`j + 4`, so the layout is `FILTER, ADDR_CONTEXT, ADDR_SEGMENT,
ADDR_VIRTUAL` followed by the limbs.
-/

/-- Filter column index of the memory-continuation table. -/
def FILTER : Nat := 0

/-- Context column index of the memory-continuation table. -/
def ADDR_CONTEXT : Nat := FILTER + 1

/-- Segment column index of the memory-continuation table. -/
def ADDR_SEGMENT : Nat := ADDR_CONTEXT + 1

/-- Virtual-offset column index of the memory-continuation table. -/
def ADDR_VIRTUAL : Nat := ADDR_SEGMENT + 1

/-- Column index of the `i`-th 32-bit value limb. -/
def value_limb (i : Nat) : Nat := ADDR_VIRTUAL + 1 + i

/-- Modelled from the spec: number of 32-bit limbs per 256-bit memory value
(`crate::memory::VALUE_LIMBS`, not under `src/`); the spec fixes eight
32-bit limbs, "wide enough for a 256-bit value". -/
def VALUE_LIMBS : Nat := 8

/-- Total number of columns of the memory-continuation table. -/
def NUM_COLUMNS : Nat := value_limb (VALUE_LIMBS - 1) + 1

/-- Modelled from the spec: memory segments (`crate::memory::segments::Segment`,
not under `src/`); only the `GlobalMetadata` segment is needed here, its
numeric index is immaterial to the claims. -/
inductive Segment where
  | GlobalMetadata : Segment
deriving DecidableEq, Repr

/-- Numeric index of a segment, as stored inside a `MemoryAddress`. -/
def Segment.index : Segment → Nat
  | .GlobalMetadata => 0

/-- A memory cell address: `{context, segment, virt}`, all stored as machine
integers (`witness/memory.rs`). -/
structure MemoryAddress where
  context : Nat
  segment : Nat
  virt : Nat
deriving DecidableEq, Repr

/-- Modelled from the spec: `MemoryAddress::new` (in `witness/memory.rs`, not
under `src/`) packs a context, a segment and a virtual offset into an
address, storing the segment by its numeric index. -/
def MemoryAddress.new (context : Nat) (segment : Segment) (virt : Nat) : MemoryAddress :=
  ⟨context, segment.index, virt⟩

/-- `MemBeforeValues`: the ordered `(address, value)` pairs handed across a
segment boundary; the value is a 256-bit unsigned integer. -/
def MemBeforeValues : Type := List (MemoryAddress × Nat)

/-- `mem_before_values_to_rows`: one trace row per `(address, value)` pair;
the row starts all-zero, then the filter, the three address columns and the
eight little-endian 32-bit value limbs are filled in. -/
def mem_before_values_to_rows (mem_before_values : MemBeforeValues) : List (List Nat) :=
  mem_before_values.map fun mem_data =>
    let row := List.replicate NUM_COLUMNS (0 : Nat)
    let row := row.set FILTER 1
    let row := row.set ADDR_CONTEXT mem_data.1.context
    let row := row.set ADDR_SEGMENT mem_data.1.segment
    let row := row.set ADDR_VIRTUAL mem_data.1.virt
    (List.range VALUE_LIMBS).foldl
      (fun row j => row.set (j + 4) (mem_data.2 >>> (j * 32) % 2 ^ 32)) row

/-- A `starky` lookup column, restricted to the two shapes this table uses:
a single column reference, or a constant. -/
inductive Column where
  | single : Nat → Column
  | constant : Nat → Column
deriving DecidableEq, Repr

/-- `ctl_data`: the identity-passthrough CTL columns — the propagated address
`(context, segment, virt)` followed by the value limbs. -/
def ctl_data : List Column :=
  let res := [ADDR_CONTEXT, ADDR_SEGMENT, ADDR_VIRTUAL].map Column.single
  res ++ (List.range 8).map fun i => Column.single (value_limb i)

/-- `ctl_filter`: the CTL row filter, the `FILTER` column itself. -/
def ctl_filter : Column := Column.single FILTER

/-- `ctl_data_memory`: the synthesized-read CTL columns — a constant-zero
`IS_READ`, the address columns, the value limbs, and a constant-zero
`TIMESTAMP`. -/
def ctl_data_memory : List Column :=
  let res := [Column.constant 0]
  let res := res ++ [ADDR_CONTEXT, ADDR_SEGMENT, ADDR_VIRTUAL].map Column.single
  let res := res ++ (List.range 8).map fun i => Column.single (value_limb i)
  res ++ [Column.constant 0]

/-- Row-major to column-major conversion; models `plonky2::util::transpose`,
which takes the width from the first row. -/
def transpose (matrix : List (List Nat)) : List (List Nat) :=
  match matrix with
  | [] => []
  | row0 :: _ => (List.range row0.length).map fun i => matrix.map fun row => row.getD i 0

/-- Padding step of `MemoryContinuationStark::generate_trace`: append all-zero
rows until the row count is `max 16 (next_power_of_two num_rows)`. -/
def padded_rows (final_values : List (List Nat)) : List (List Nat) :=
  let num_rows := final_values.length
  let num_rows_padded := max 16 (next_power_of_two num_rows)
  final_values ++ List.replicate (num_rows_padded - num_rows) (List.replicate NUM_COLUMNS 0)

/-- `MemoryContinuationStark::generate_trace`: pad the supplied rows, then
transpose into per-column polynomial values. -/
def generate_trace (final_values : List (List Nat)) : List (List Nat) :=
  transpose (padded_rows final_values)

/-!
Poseidon-sponge column layout (`evm/src/poseidon_sponge/columns.rs`).

The source reinterprets (`transmute`) the `repr(C)` record as a flat array
of `NUM_POSEIDON_SPONGE_COLUMNS` scalars, so the flat layout is the record
fields in declaration order, array fields inline.
-/

/-- Modelled from the spec: `POSEIDON_SPONGE_RATE`
(`evm/src/poseidon/columns.rs`, not under `src/`) — the sponge rate, the
number of elements absorbed per block; eight for the plonky2 Poseidon
sponge over Goldilocks. -/
def POSEIDON_SPONGE_RATE : Nat := 8

/-- Modelled from the spec: `POSEIDON_SPONGE_WIDTH`
(`evm/src/poseidon/columns.rs`, not under `src/`) — the full permutation
state size; twelve for the plonky2 Poseidon permutation. -/
def POSEIDON_SPONGE_WIDTH : Nat := 12

/-- The named column view of one Poseidon-sponge trace row
(`PoseidonSpongeColumnsView<T>`), with fixed-length array fields modelled
as functions out of `Fin`. -/
@[ext]
structure PoseidonSpongeColumnsView (T : Type) where
  is_full_input_block : T
  context : T
  segment : T
  virt : T
  timestamp : T
  len : T
  already_absorbed_elements : T
  is_final_input_len : Fin POSEIDON_SPONGE_RATE → T
  block : Fin POSEIDON_SPONGE_RATE → T
  input_state : Fin (POSEIDON_SPONGE_RATE + POSEIDON_SPONGE_WIDTH) → T
  updated_digest : Fin (POSEIDON_SPONGE_WIDTH + POSEIDON_SPONGE_RATE) → T

/-- `NUM_POSEIDON_SPONGE_COLUMNS = size_of::<PoseidonSpongeColumnsView<u8>>()`:
the total scalar count of the record, i.e. seven scalars plus the four
array fields. -/
def NUM_POSEIDON_SPONGE_COLUMNS : Nat :=
  7 + POSEIDON_SPONGE_RATE + POSEIDON_SPONGE_RATE
    + (POSEIDON_SPONGE_RATE + POSEIDON_SPONGE_WIDTH)
    + (POSEIDON_SPONGE_WIDTH + POSEIDON_SPONGE_RATE)

/-- `From<[T; NUM_POSEIDON_SPONGE_COLUMNS]> for PoseidonSpongeColumnsView<T>`:
the flat array reinterpreted as the record, field by field in declaration
order. -/
def view_from_flat {T : Type} (a : Fin NUM_POSEIDON_SPONGE_COLUMNS → T) :
    PoseidonSpongeColumnsView T where
  is_full_input_block := a ⟨0, by decide⟩
  context := a ⟨1, by decide⟩
  segment := a ⟨2, by decide⟩
  virt := a ⟨3, by decide⟩
  timestamp := a ⟨4, by decide⟩
  len := a ⟨5, by decide⟩
  already_absorbed_elements := a ⟨6, by decide⟩
  is_final_input_len := fun i => a ⟨7 + i.val, by
    have h : i.val < 8 := i.isLt
    change _ < 63
    omega⟩
  block := fun i => a ⟨15 + i.val, by
    have h : i.val < 8 := i.isLt
    change _ < 63
    omega⟩
  input_state := fun i => a ⟨23 + i.val, by
    have h : i.val < 20 := i.isLt
    change _ < 63
    omega⟩
  updated_digest := fun i => a ⟨43 + i.val, by
    have h : i.val < 20 := i.isLt
    change _ < 63
    omega⟩

/-- `From<PoseidonSpongeColumnsView<T>> for [T; NUM_POSEIDON_SPONGE_COLUMNS]`:
the record reinterpreted as the flat array, field by field in declaration
order. -/
def view_to_flat {T : Type} (v : PoseidonSpongeColumnsView T) :
    Fin NUM_POSEIDON_SPONGE_COLUMNS → T :=
  fun i =>
    if i.val = 0 then v.is_full_input_block
    else if i.val = 1 then v.context
    else if i.val = 2 then v.segment
    else if i.val = 3 then v.virt
    else if i.val = 4 then v.timestamp
    else if i.val = 5 then v.len
    else if i.val = 6 then v.already_absorbed_elements
    else if h : i.val < 15 then v.is_final_input_len ⟨i.val - 7, by change _ < 8; omega⟩
    else if h2 : i.val < 23 then v.block ⟨i.val - 15, by change _ < 8; omega⟩
    else if h3 : i.val < 43 then v.input_state ⟨i.val - 23, by change _ < 20; omega⟩
    else v.updated_digest ⟨i.val - 43, by
      have h4 : i.val < 63 := i.isLt
      change _ < 20
      omega⟩

/-- `indices_arr::<N>()`: the flat array whose `i`-th entry is `i`. -/
def indices_arr : Fin NUM_POSEIDON_SPONGE_COLUMNS → Nat := fun i => i.val

/-- `make_col_map`: the column map, obtained by reinterpreting the index
array as a record (so each field holds its own column index). -/
def make_col_map : PoseidonSpongeColumnsView Nat := view_from_flat indices_arr

/-- `POSEIDON_SPONGE_COL_MAP`: the fixed column-map constant. -/
def POSEIDON_SPONGE_COL_MAP : PoseidonSpongeColumnsView Nat := make_col_map

/-- The scalar entries of a column view, flattened in field-declaration
order: used to speak about "the scalar positions of the record". -/
def col_map_entries (v : PoseidonSpongeColumnsView Nat) : List Nat :=
  [v.is_full_input_block, v.context, v.segment, v.virt, v.timestamp, v.len,
    v.already_absorbed_elements]
  ++ (List.finRange POSEIDON_SPONGE_RATE).map v.is_final_input_len
  ++ (List.finRange POSEIDON_SPONGE_RATE).map v.block
  ++ (List.finRange (POSEIDON_SPONGE_RATE + POSEIDON_SPONGE_WIDTH)).map v.input_state
  ++ (List.finRange (POSEIDON_SPONGE_WIDTH + POSEIDON_SPONGE_RATE)).map v.updated_digest

/-!
Interpreter driver loop (`src/generation/mod.rs`, `generate_traces`).

Only the projection of `GenerationState` that the loop inspects is
modelled: the program counter register and the logical clock (the CPU
trace length). `transition` (`witness/transition.rs`, not under `src/`)
is kept abstract: the theorems quantify over it.
-/

/-- The register file, restricted to the field the driver loop reads. -/
structure Registers where
  program_counter : Nat
deriving DecidableEq, Repr

/-- The trace accumulators, restricted to the logical clock the driver
loop reads. -/
structure Traces where
  clock : Nat
deriving DecidableEq, Repr

/-- The interpreter state as seen by the driver loop. -/
structure GenerationState where
  registers : Registers
  traces : Traces
deriving DecidableEq, Repr

/-- The loop's exit test: the program counter sits at one of the two halt
labels and the logical clock is a power of two. -/
def halt_condition (halt_pc0 halt_pc1 : Nat) (s : GenerationState) : Bool :=
  let pc := s.registers.program_counter
  let in_halt_loop := pc == halt_pc0 || pc == halt_pc1
  in_halt_loop && is_power_of_two s.traces.clock

/-- The driver loop of `generate_traces`, with explicit fuel (the source
loop has no step bound; `none` means the fuel ran out before the halt
condition was met). -/
def run_loop (transition : GenerationState → GenerationState) (halt_pc0 halt_pc1 : Nat) :
    Nat → GenerationState → Option GenerationState
  | 0, _ => none
  | fuel + 1, s =>
    if halt_condition halt_pc0 halt_pc1 s then some s
    else run_loop transition halt_pc0 halt_pc1 fuel (transition s)

/-- A concrete transition used to exercise the loop: the clock advances by
one each step, and the program counter moves to the halt label `1000`
from clock `37` on. -/
def scenario_transition (s : GenerationState) : GenerationState :=
  { registers := ⟨if s.traces.clock + 1 < 37 then 0 else 1000⟩,
    traces := ⟨s.traces.clock + 1⟩ }

/-!
Assembly of `PublicValues` after the loop halts
(`src/generation/mod.rs`, `generate_traces`).
-/

/-- Modelled from the spec: the six trie-root fields of `GlobalMetadata`
(`cpu/kernel/constants/global_metadata.rs`, not under `src/`). -/
inductive GlobalMetadata where
  | StateTrieRootDigestBefore : GlobalMetadata
  | TransactionTrieRootDigestBefore : GlobalMetadata
  | ReceiptTrieRootDigestBefore : GlobalMetadata
  | StateTrieRootDigestAfter : GlobalMetadata
  | TransactionTrieRootDigestAfter : GlobalMetadata
  | ReceiptTrieRootDigestAfter : GlobalMetadata
deriving DecidableEq, Repr

/-- Modelled from the spec: the fixed field offset (`field as usize`) of
each `GlobalMetadata` variant; the offsets are fixed and pairwise
distinct, their concrete values are immaterial to the claims. -/
def GlobalMetadata.index : GlobalMetadata → Nat
  | .StateTrieRootDigestBefore => 0
  | .TransactionTrieRootDigestBefore => 1
  | .ReceiptTrieRootDigestBefore => 2
  | .StateTrieRootDigestAfter => 3
  | .TransactionTrieRootDigestAfter => 4
  | .ReceiptTrieRootDigestAfter => 5

/-- The three trie-root digests (`TrieRoots`); `H256::from_uint` is the
canonical bijection between 256-bit words and digests and is modelled as
the identity on naturals. -/
structure TrieRoots where
  state_root : Nat
  transactions_root : Nat
  receipts_root : Nat
deriving DecidableEq, Repr

/-- The caller-supplied inputs, restricted to the field that flows into
`PublicValues`; the remaining fields (`signed_txns`, `tries`,
`contract_code`) only feed the abstracted interpreter. -/
structure GenerationInputs (B : Type) where
  block_metadata : B

/-- The externally-checkable claim a proof attests to. -/
structure PublicValues (B : Type) where
  trie_roots_before : TrieRoots
  trie_roots_after : TrieRoots
  block_metadata : B

/-- The `read_metadata` closure of `generate_traces`: read the memory cell
at context `0`, segment `GlobalMetadata`, offset `field as usize`. -/
def read_metadata (memory : MemoryAddress → Nat) (field : GlobalMetadata) : Nat :=
  memory (MemoryAddress.new 0 Segment.GlobalMetadata field.index)

/-- `read_metadata`, also returning the address it reads, so that the set
of metadata reads performed by the assembly is part of the model. -/
def read_metadata_logged (memory : MemoryAddress → Nat) (field : GlobalMetadata) :
    Nat × List MemoryAddress :=
  (read_metadata memory field, [MemoryAddress.new 0 Segment.GlobalMetadata field.index])

/-- The post-halt tail of `generate_traces`: read the trie-root digests out
of memory in source order and assemble `PublicValues`; the second
component is the list of metadata addresses read, in order. -/
def assemble_public_values {B : Type} (memory : MemoryAddress → Nat)
    (inputs : GenerationInputs B) : PublicValues B × List MemoryAddress :=
  let r1 := read_metadata_logged memory .StateTrieRootDigestBefore
  let r2 := read_metadata_logged memory .TransactionTrieRootDigestBefore
  let r3 := read_metadata_logged memory .ReceiptTrieRootDigestBefore
  let r4 := read_metadata_logged memory .StateTrieRootDigestAfter
  let r5 := read_metadata_logged memory .TransactionTrieRootDigestAfter
  let r6 := read_metadata_logged memory .ReceiptTrieRootDigestAfter
  ({ trie_roots_before := ⟨r1.1, r2.1, r3.1⟩,
     trie_roots_after := ⟨r4.1, r5.1, r6.1⟩,
     block_metadata := inputs.block_metadata },
   r1.2 ++ r2.2 ++ r3.2 ++ r4.2 ++ r5.2 ++ r6.2)

/-!
Supporting lemmas shared by the claim theorems.
-/

theorem getD_replicate_zero (k j : Nat) : (List.replicate k (0 : Nat)).getD j 0 = 0 := by
  rw [List.getD_eq_getElem?_getD, List.getElem?_replicate]
  split <;> rfl

theorem getD_map_of_lt {α β : Type} (f : α → β) (l : List α) (i : Nat) (d : β)
    (h : i < l.length) : (l.map f).getD i d = f (l.get ⟨i, h⟩) := by
  rw [List.getD_eq_getElem?_getD, List.getElem?_map, List.getElem?_eq_getElem h]
  rfl

theorem padded_rows_length (final_values : List (List Nat)) :
    (padded_rows final_values).length = max 16 (next_power_of_two final_values.length) := by
  have h1 : final_values.length ≤ max 16 (next_power_of_two final_values.length) :=
    le_trans (le_next_power_of_two _) (le_max_right _ _)
  simp only [padded_rows, List.length_append, List.length_replicate]
  omega

theorem mem_padded_rows_length (final_values : List (List Nat))
    (hwf : ∀ r ∈ final_values, r.length = NUM_COLUMNS) :
    ∀ r ∈ padded_rows final_values, r.length = NUM_COLUMNS := by
  intro r hr
  simp only [padded_rows] at hr
  rcases List.mem_append.1 hr with h | h
  · exact hwf r h
  · rw [List.eq_of_mem_replicate h, List.length_replicate]

theorem transpose_cons (row0 : List Nat) (rest : List (List Nat)) :
    transpose (row0 :: rest) = (List.range row0.length).map
      fun i => (row0 :: rest).map fun row => row.getD i 0 := rfl

/-- The shape of `generate_trace` on well-formed rows: one output column per
column index, each obtained by reading that index in every padded row. -/
theorem generate_trace_eq (final_values : List (List Nat))
    (hwf : ∀ r ∈ final_values, r.length = NUM_COLUMNS) :
    generate_trace final_values = (List.range NUM_COLUMNS).map
      fun j => (padded_rows final_values).map fun row => row.getD j 0 := by
  unfold generate_trace
  rcases hpr : padded_rows final_values with _ | ⟨row0, rest⟩
  · exfalso
    have hlen := padded_rows_length final_values
    rw [hpr] at hlen
    simp only [List.length_nil] at hlen
    have := le_max_left 16 (next_power_of_two final_values.length)
    omega
  · have hrow0 : row0.length = NUM_COLUMNS :=
      mem_padded_rows_length final_values hwf row0 (hpr ▸ List.mem_cons_self row0 rest)
    rw [transpose_cons, hrow0]

/-- The fully-evaluated shape of one row built by `mem_before_values_to_rows`:
the filter at one, the address triple, then the eight little-endian 32-bit
limbs of the value. -/
def mem_before_row (p : MemoryAddress × Nat) : List Nat :=
  [1, p.1.context, p.1.segment, p.1.virt]
    ++ (List.range VALUE_LIMBS).map fun j => p.2 >>> (j * 32) % 2 ^ 32

theorem mem_before_values_to_rows_eq (mem_before_values : MemBeforeValues) :
    mem_before_values_to_rows mem_before_values = mem_before_values.map mem_before_row := rfl

/-!
The claim theorems.
-/

/-- C4: for every flat array `a` of `NUM_POSEIDON_SPONGE_COLUMNS` values,
converting `a` to a `PoseidonSpongeColumnsView` and back yields exactly `a`,
and converting a record to a flat array and back yields the same record:
the two `From` conversions are mutually inverse bijections. -/
theorem poseidon_sponge_view_round_trip {T : Type}
    (a : Fin NUM_POSEIDON_SPONGE_COLUMNS → T) (v : PoseidonSpongeColumnsView T) :
    view_to_flat (view_from_flat a) = a ∧ view_from_flat (view_to_flat v) = v := by
  constructor
  · funext i
    rcases i with ⟨iv, hlt⟩
    have h63 : iv < 63 := hlt
    interval_cases iv <;> rfl
  · cases v
    refine PoseidonSpongeColumnsView.ext rfl rfl rfl rfl rfl rfl rfl ?_ ?_ ?_ ?_ <;>
      · funext i
        rcases i with ⟨iv, hlt⟩
        first
          | (have h8 : iv < 8 := hlt; interval_cases iv <;> rfl)
          | (have h20 : iv < 20 := hlt; interval_cases iv <;> rfl)

/-- C5: the scalar positions of `POSEIDON_SPONGE_COL_MAP`, flattened in field
declaration order, form a bijection onto `0..NUM_POSEIDON_SPONGE_COLUMNS`:
no index repeats, every index in range occurs, and nothing out of range
occurs. -/
theorem poseidon_sponge_col_map_bijection :
    (col_map_entries POSEIDON_SPONGE_COL_MAP).Nodup
    ∧ (col_map_entries POSEIDON_SPONGE_COL_MAP).length = NUM_POSEIDON_SPONGE_COLUMNS
    ∧ (∀ k, k < NUM_POSEIDON_SPONGE_COLUMNS → k ∈ col_map_entries POSEIDON_SPONGE_COL_MAP)
    ∧ (∀ k ∈ col_map_entries POSEIDON_SPONGE_COL_MAP, k < NUM_POSEIDON_SPONGE_COLUMNS) := by
  refine ⟨by decide, by decide, by decide, by decide⟩

/-- C6: `ctl_data_memory` is, in order, a constant-zero `IS_READ` column, the
three address columns, the eight value-limb columns, and a constant-zero
`TIMESTAMP` column — thirteen columns; `ctl_data` is exactly the three
address columns followed by the eight value-limb columns — eleven columns. -/
theorem ctl_column_vectors_shape :
    ctl_data_memory = [Column.constant 0, Column.single ADDR_CONTEXT,
      Column.single ADDR_SEGMENT, Column.single ADDR_VIRTUAL,
      Column.single (value_limb 0), Column.single (value_limb 1),
      Column.single (value_limb 2), Column.single (value_limb 3),
      Column.single (value_limb 4), Column.single (value_limb 5),
      Column.single (value_limb 6), Column.single (value_limb 7), Column.constant 0]
    ∧ ctl_data_memory.length = 13
    ∧ ctl_data = [Column.single ADDR_CONTEXT, Column.single ADDR_SEGMENT,
        Column.single ADDR_VIRTUAL,
        Column.single (value_limb 0), Column.single (value_limb 1),
        Column.single (value_limb 2), Column.single (value_limb 3),
        Column.single (value_limb 4), Column.single (value_limb 5),
        Column.single (value_limb 6), Column.single (value_limb 7)]
    ∧ ctl_data.length = 11 := by
  refine ⟨by decide, by decide, by decide, by decide⟩

/-- C8: on an empty `final_values` input, `generate_trace` succeeds and
produces the sixteen-row minimum table: `NUM_COLUMNS` columns of sixteen
entries, every entry zero — in particular the whole `FILTER` column is
zero. -/
theorem generate_trace_empty_input :
    generate_trace [] = List.replicate NUM_COLUMNS (List.replicate 16 0)
    ∧ (generate_trace []).length = NUM_COLUMNS
    ∧ (∀ col ∈ generate_trace [], col.length = 16 ∧ ∀ i, i < 16 → col.getD i 0 = 0)
    ∧ (generate_trace []).getD FILTER [] = List.replicate 16 0 := by
  refine ⟨by decide, by decide, by decide, by decide⟩

/-- C1: the driver loop of `generate_traces` exits exactly when the program
counter equals `halt_pc0` or `halt_pc1` and the logical clock is a power of
two: every state it returns satisfies that conjunction, and it is the first
state along the trajectory to do so (no earlier state satisfies the halt
condition, so in particular a halt-pc hit at a non-power-of-two clock such
as 37 does not stop the loop). -/
theorem run_loop_exits_iff_halt_pc_and_pow_two_clock
    (transition : GenerationState → GenerationState) (halt_pc0 halt_pc1 fuel : Nat)
    (s s' : GenerationState)
    (h : run_loop transition halt_pc0 halt_pc1 fuel s = some s') :
    ((s'.registers.program_counter = halt_pc0 ∨ s'.registers.program_counter = halt_pc1)
      ∧ ∃ k, s'.traces.clock = 2 ^ k)
    ∧ ∃ n, s' = transition^[n] s
        ∧ ∀ m, m < n → halt_condition halt_pc0 halt_pc1 (transition^[m] s) = false := by
  induction fuel generalizing s with
  | zero => simp [run_loop] at h
  | succ fuel ih =>
    simp only [run_loop] at h
    by_cases hc : halt_condition halt_pc0 halt_pc1 s = true
    · rw [if_pos hc] at h
      injection h with h
      subst h
      simp only [halt_condition, Bool.and_eq_true, Bool.or_eq_true, beq_iff_eq] at hc
      refine ⟨⟨hc.1, (is_power_of_two_iff _).1 hc.2⟩, 0, rfl, ?_⟩
      intro m hm
      omega
    · have hc' : halt_condition halt_pc0 halt_pc1 s = false := by simpa using hc
      rw [if_neg hc] at h
      obtain ⟨hmain, n, hn, hfirst⟩ := ih (transition s) h
      refine ⟨hmain, n + 1, ?_, ?_⟩
      · rw [Function.iterate_succ_apply]
        exact hn
      · intro m hm
        cases m with
        | zero => simpa using hc'
        | succ m' =>
          rw [Function.iterate_succ_apply]
          exact hfirst m' (by omega)

/-- Witness for C1: with a transition that advances the clock by one per
step and parks the program counter at the halt label `1000` from clock 37
on, the loop does not stop at clock 37 (not a power of two) and returns
the state at clock 64, the first power-of-two clock with a halt-pc hit. -/
theorem run_loop_exits_iff_halt_pc_and_pow_two_clock_witness :
    run_loop scenario_transition 1000 1001 70 ⟨⟨0⟩, ⟨0⟩⟩ = some ⟨⟨1000⟩, ⟨64⟩⟩
    ∧ (scenario_transition^[37] (⟨⟨0⟩, ⟨0⟩⟩ : GenerationState)).registers.program_counter = 1000
    ∧ is_power_of_two 37 = false
    ∧ (scenario_transition^[37] (⟨⟨0⟩, ⟨0⟩⟩ : GenerationState)).traces.clock = 37
    ∧ (((⟨⟨1000⟩, ⟨64⟩⟩ : GenerationState).registers.program_counter = 1000
          ∨ (⟨⟨1000⟩, ⟨64⟩⟩ : GenerationState).registers.program_counter = 1001)
        ∧ ∃ k, (⟨⟨1000⟩, ⟨64⟩⟩ : GenerationState).traces.clock = 2 ^ k)
      ∧ ∃ n, (⟨⟨1000⟩, ⟨64⟩⟩ : GenerationState) = scenario_transition^[n] ⟨⟨0⟩, ⟨0⟩⟩
          ∧ ∀ m, m < n →
              halt_condition 1000 1001 (scenario_transition^[m] ⟨⟨0⟩, ⟨0⟩⟩) = false :=
  ⟨by decide, by decide, by decide, by decide,
    run_loop_exits_iff_halt_pc_and_pow_two_clock scenario_transition 1000 1001 70
      ⟨⟨0⟩, ⟨0⟩⟩ ⟨⟨1000⟩, ⟨64⟩⟩ (by decide)⟩

/-- C2: on a row buffer of length `n` whose rows all have `NUM_COLUMNS`
entries, `generate_trace` produces `NUM_COLUMNS` columns whose common
length — the table's row count — is exactly `max 16 (next_power_of_two n)`;
every appended padding row reads as zero in every column, and the row count
is a power of two and at least 16. -/
theorem generate_trace_row_count_and_padding (final_values : List (List Nat))
    (hwf : ∀ r ∈ final_values, r.length = NUM_COLUMNS) :
    (generate_trace final_values).length = NUM_COLUMNS
    ∧ (∀ col ∈ generate_trace final_values,
        col.length = max 16 (next_power_of_two final_values.length))
    ∧ (∀ col ∈ generate_trace final_values, ∀ i, final_values.length ≤ i →
        i < max 16 (next_power_of_two final_values.length) → col.getD i 0 = 0)
    ∧ (∃ k, max 16 (next_power_of_two final_values.length) = 2 ^ k)
    ∧ 16 ≤ max 16 (next_power_of_two final_values.length) := by
  have heq := generate_trace_eq final_values hwf
  have hplen := padded_rows_length final_values
  have hnle : final_values.length ≤ max 16 (next_power_of_two final_values.length) :=
    le_trans (le_next_power_of_two _) (le_max_right _ _)
  refine ⟨?_, ?_, ?_, ?_, le_max_left _ _⟩
  · rw [heq]
    simp
  · intro col hcol
    rw [heq] at hcol
    obtain ⟨j, hj, rfl⟩ := List.mem_map.1 hcol
    rw [List.length_map, hplen]
  · intro col hcol i hni hip
    rw [heq] at hcol
    obtain ⟨j, hj, rfl⟩ := List.mem_map.1 hcol
    rw [List.getD_eq_getElem?_getD, List.getElem?_map]
    simp only [padded_rows]
    rw [List.getElem?_append_right hni, List.getElem?_replicate,
      if_pos (by simp only [padded_rows, List.length_append, List.length_replicate] at hplen ⊢; omega)]
    simp only [Option.map_some', Option.getD_some]
    exact getD_replicate_zero _ _
  · rcases next_power_of_two_pow final_values.length with ⟨m, hm⟩
    rcases le_total (next_power_of_two final_values.length) 16 with hle | hle
    · exact ⟨4, by rw [Nat.max_eq_left hle]; rfl⟩
    · exact ⟨m, by rw [Nat.max_eq_right hle, hm]⟩

/-- Witness for C2: a single well-formed row pads up to the 16-row minimum,
a power of two. -/
theorem generate_trace_row_count_and_padding_witness :
    (∀ r ∈ [[1, 2, 3, 4, 5, 6, 7, 8, 9, 10, 11, 12]], r.length = NUM_COLUMNS)
    ∧ ((generate_trace [[1, 2, 3, 4, 5, 6, 7, 8, 9, 10, 11, 12]]).length = NUM_COLUMNS
      ∧ (∀ col ∈ generate_trace [[1, 2, 3, 4, 5, 6, 7, 8, 9, 10, 11, 12]],
          col.length = max 16 (next_power_of_two
            ([[1, 2, 3, 4, 5, 6, 7, 8, 9, 10, 11, 12]] : List (List Nat)).length))
      ∧ (∀ col ∈ generate_trace [[1, 2, 3, 4, 5, 6, 7, 8, 9, 10, 11, 12]], ∀ i,
          ([[1, 2, 3, 4, 5, 6, 7, 8, 9, 10, 11, 12]] : List (List Nat)).length ≤ i →
          i < max 16 (next_power_of_two
            ([[1, 2, 3, 4, 5, 6, 7, 8, 9, 10, 11, 12]] : List (List Nat)).length) →
          col.getD i 0 = 0)
      ∧ (∃ k, max 16 (next_power_of_two
          ([[1, 2, 3, 4, 5, 6, 7, 8, 9, 10, 11, 12]] : List (List Nat)).length) = 2 ^ k)
      ∧ 16 ≤ max 16 (next_power_of_two
          ([[1, 2, 3, 4, 5, 6, 7, 8, 9, 10, 11, 12]] : List (List Nat)).length)) :=
  ⟨by decide, generate_trace_row_count_and_padding
    [[1, 2, 3, 4, 5, 6, 7, 8, 9, 10, 11, 12]] (by decide)⟩

/-- C3: `mem_before_values_to_rows` produces exactly one row per
`(address, value)` pair; each row has the filter column at one, the three
address columns at the pair's context, segment and offset, limb `j` of the
value (its bits `32*j .. 32*j+31`) in column `value_limb j`, and every
other entry zero. -/
theorem mem_before_values_to_rows_shape (mem_before_values : MemBeforeValues)
    (i : Nat) (hi : i < mem_before_values.length) :
    (mem_before_values_to_rows mem_before_values).length = mem_before_values.length
    ∧ ((mem_before_values_to_rows mem_before_values).getD i []).length = NUM_COLUMNS
    ∧ ((mem_before_values_to_rows mem_before_values).getD i []).getD FILTER 0 = 1
    ∧ ((mem_before_values_to_rows mem_before_values).getD i []).getD ADDR_CONTEXT 0
        = (mem_before_values.get ⟨i, hi⟩).1.context
    ∧ ((mem_before_values_to_rows mem_before_values).getD i []).getD ADDR_SEGMENT 0
        = (mem_before_values.get ⟨i, hi⟩).1.segment
    ∧ ((mem_before_values_to_rows mem_before_values).getD i []).getD ADDR_VIRTUAL 0
        = (mem_before_values.get ⟨i, hi⟩).1.virt
    ∧ (∀ j, j < VALUE_LIMBS →
        ((mem_before_values_to_rows mem_before_values).getD i []).getD (value_limb j) 0
          = (mem_before_values.get ⟨i, hi⟩).2 / 2 ^ (32 * j) % 2 ^ 32)
    ∧ (∀ k, k < NUM_COLUMNS → k ≠ FILTER → k ≠ ADDR_CONTEXT → k ≠ ADDR_SEGMENT →
        k ≠ ADDR_VIRTUAL → (∀ j, j < VALUE_LIMBS → k ≠ value_limb j) →
        ((mem_before_values_to_rows mem_before_values).getD i []).getD k 0 = 0) := by
  have hrow : (mem_before_values_to_rows mem_before_values).getD i []
      = mem_before_row (mem_before_values.get ⟨i, hi⟩) := by
    rw [mem_before_values_to_rows_eq]
    exact getD_map_of_lt _ _ _ _ hi
  have hcover : ∀ k, k < NUM_COLUMNS → k = FILTER ∨ k = ADDR_CONTEXT ∨ k = ADDR_SEGMENT
      ∨ k = ADDR_VIRTUAL ∨ k ∈ (List.range VALUE_LIMBS).map value_limb := by decide
  refine ⟨?_, ?_, ?_, ?_, ?_, ?_, ?_, ?_⟩
  · rw [mem_before_values_to_rows_eq, List.length_map]
  · rw [hrow]
    rfl
  · rw [hrow]
    rfl
  · rw [hrow]
    rfl
  · rw [hrow]
    rfl
  · rw [hrow]
    rfl
  · intro j hj
    rw [hrow]
    unfold mem_before_row
    rw [List.getD_eq_getElem?_getD,
      List.getElem?_append_right (by change 4 ≤ 4 + j; omega),
      show value_limb j - ([1, (mem_before_values.get ⟨i, hi⟩).1.context,
        (mem_before_values.get ⟨i, hi⟩).1.segment,
        (mem_before_values.get ⟨i, hi⟩).1.virt] : List Nat).length = j from by
          change 4 + j - 4 = j
          omega,
      List.getElem?_map, List.getElem?_range hj]
    simp only [Option.map_some', Option.getD_some]
    rw [Nat.shiftRight_eq_div_pow, Nat.mul_comm j 32]
  · intro k hk h0 h1 h2 h3 hlimb
    rcases hcover k hk with rfl | rfl | rfl | rfl | hmem
    · exact absurd rfl h0
    · exact absurd rfl h1
    · exact absurd rfl h2
    · exact absurd rfl h3
    · obtain ⟨j, hjmem, rfl⟩ := List.mem_map.1 hmem
      exact absurd rfl (hlimb j (List.mem_range.1 hjmem))

/-- Witness for C3: a single pair at address `(0, 0, 5)` with value 42
becomes one row with filter one, that address, and 42 in the lowest limb. -/
theorem mem_before_values_to_rows_shape_witness :
    0 < ([(⟨0, 0, 5⟩, 42)] : MemBeforeValues).length
    ∧ ((mem_before_values_to_rows [(⟨0, 0, 5⟩, 42)]).length
        = ([(⟨0, 0, 5⟩, 42)] : MemBeforeValues).length
      ∧ ((mem_before_values_to_rows [(⟨0, 0, 5⟩, 42)]).getD 0 []).length = NUM_COLUMNS
      ∧ ((mem_before_values_to_rows [(⟨0, 0, 5⟩, 42)]).getD 0 []).getD FILTER 0 = 1
      ∧ ((mem_before_values_to_rows [(⟨0, 0, 5⟩, 42)]).getD 0 []).getD ADDR_CONTEXT 0
          = (([(⟨0, 0, 5⟩, 42)] : MemBeforeValues).get ⟨0, by decide⟩).1.context
      ∧ ((mem_before_values_to_rows [(⟨0, 0, 5⟩, 42)]).getD 0 []).getD ADDR_SEGMENT 0
          = (([(⟨0, 0, 5⟩, 42)] : MemBeforeValues).get ⟨0, by decide⟩).1.segment
      ∧ ((mem_before_values_to_rows [(⟨0, 0, 5⟩, 42)]).getD 0 []).getD ADDR_VIRTUAL 0
          = (([(⟨0, 0, 5⟩, 42)] : MemBeforeValues).get ⟨0, by decide⟩).1.virt
      ∧ (∀ j, j < VALUE_LIMBS →
          ((mem_before_values_to_rows [(⟨0, 0, 5⟩, 42)]).getD 0 []).getD (value_limb j) 0
            = (([(⟨0, 0, 5⟩, 42)] : MemBeforeValues).get ⟨0, by decide⟩).2
                / 2 ^ (32 * j) % 2 ^ 32)
      ∧ (∀ k, k < NUM_COLUMNS → k ≠ FILTER → k ≠ ADDR_CONTEXT → k ≠ ADDR_SEGMENT →
          k ≠ ADDR_VIRTUAL → (∀ j, j < VALUE_LIMBS → k ≠ value_limb j) →
          ((mem_before_values_to_rows [(⟨0, 0, 5⟩, 42)]).getD 0 []).getD k 0 = 0)) :=
  ⟨by decide, mem_before_values_to_rows_shape [(⟨0, 0, 5⟩, 42)] 0 (by decide)⟩

/-- C7 counterexample: the post-halt assembly of `generate_traces` does not
read four trie-root digests out of memory — at any concrete input (here
the all-zero memory and trivial inputs) its metadata-read list has length
six, not four. -/
theorem assemble_public_values_not_four_reads :
    ¬ ((assemble_public_values (fun _ => 0) (⟨0⟩ : GenerationInputs Nat)).2.length = 4) := by
  decide

/-- C7 (amended): after the interpreter loop halts, `generate_traces` reads
six trie-root digests (state, transactions and receipts roots, before and
after) out of memory at fixed metadata addresses — context `0`, segment
`GlobalMetadata`, fixed field offsets — and assembles them into
`PublicValues`, whose `block_metadata` equals the `block_metadata` of the
`GenerationInputs` unchanged. -/
theorem assemble_public_values_six_reads {B : Type} (memory : MemoryAddress → Nat)
    (inputs : GenerationInputs B) :
    (assemble_public_values memory inputs).2.length = 6
    ∧ (assemble_public_values memory inputs).2 =
        [GlobalMetadata.StateTrieRootDigestBefore,
          GlobalMetadata.TransactionTrieRootDigestBefore,
          GlobalMetadata.ReceiptTrieRootDigestBefore,
          GlobalMetadata.StateTrieRootDigestAfter,
          GlobalMetadata.TransactionTrieRootDigestAfter,
          GlobalMetadata.ReceiptTrieRootDigestAfter].map
          (fun f => MemoryAddress.new 0 Segment.GlobalMetadata f.index)
    ∧ (∀ a ∈ (assemble_public_values memory inputs).2,
        a.context = 0 ∧ a.segment = Segment.index Segment.GlobalMetadata)
    ∧ (assemble_public_values memory inputs).1.block_metadata = inputs.block_metadata
    ∧ (assemble_public_values memory inputs).1.trie_roots_before =
        ⟨read_metadata memory GlobalMetadata.StateTrieRootDigestBefore,
          read_metadata memory GlobalMetadata.TransactionTrieRootDigestBefore,
          read_metadata memory GlobalMetadata.ReceiptTrieRootDigestBefore⟩
    ∧ (assemble_public_values memory inputs).1.trie_roots_after =
        ⟨read_metadata memory GlobalMetadata.StateTrieRootDigestAfter,
          read_metadata memory GlobalMetadata.TransactionTrieRootDigestAfter,
          read_metadata memory GlobalMetadata.ReceiptTrieRootDigestAfter⟩ := by
  refine ⟨rfl, rfl, ?_, rfl, rfl, rfl⟩
  intro a ha
  simp only [assemble_public_values, read_metadata_logged, List.cons_append, List.nil_append,
    List.mem_cons, List.not_mem_nil, or_false] at ha
  rcases ha with rfl | rfl | rfl | rfl | rfl | rfl <;> exact ⟨rfl, rfl⟩

/-- C9: when the supplied row buffer already has a power-of-two length of at
least sixteen, the shaping step appends no rows: the padded buffer is the
input itself and every output column's length — the table's row count —
equals the input row count. -/
theorem generate_trace_idempotent_on_padded (final_values : List (List Nat)) (k : Nat)
    (hpow : final_values.length = 2 ^ k) (h16 : 16 ≤ final_values.length) :
    padded_rows final_values = final_values
    ∧ ∀ col ∈ generate_trace final_values, col.length = final_values.length := by
  have h1 : next_power_of_two final_values.length = final_values.length := by
    rw [hpow]
    exact next_power_of_two_of_pow k
  have h2 : max 16 (next_power_of_two final_values.length) = final_values.length := by
    rw [h1]
    exact Nat.max_eq_right h16
  have hpad : padded_rows final_values = final_values := by
    simp only [padded_rows, h2, Nat.sub_self, List.replicate_zero, List.append_nil]
  refine ⟨hpad, ?_⟩
  intro col hcol
  unfold generate_trace at hcol
  rw [hpad] at hcol
  rcases final_values with _ | ⟨row0, rest⟩
  · simp at h16
  · rw [transpose_cons] at hcol
    obtain ⟨j, hj, rfl⟩ := List.mem_map.1 hcol
    rw [List.length_map]

/-- Witness for C9: sixteen all-zero rows (a power-of-two count) are passed
through without any further padding. -/
theorem generate_trace_idempotent_on_padded_witness :
    (List.replicate 16 (List.replicate NUM_COLUMNS (0 : Nat))).length = 2 ^ 4
    ∧ 16 ≤ (List.replicate 16 (List.replicate NUM_COLUMNS (0 : Nat))).length
    ∧ (padded_rows (List.replicate 16 (List.replicate NUM_COLUMNS (0 : Nat)))
        = List.replicate 16 (List.replicate NUM_COLUMNS (0 : Nat))
      ∧ ∀ col ∈ generate_trace (List.replicate 16 (List.replicate NUM_COLUMNS (0 : Nat))),
          col.length = (List.replicate 16 (List.replicate NUM_COLUMNS (0 : Nat))).length) :=
  ⟨by decide, by decide,
    generate_trace_idempotent_on_padded (List.replicate 16 (List.replicate NUM_COLUMNS 0)) 4
      (by decide) (by decide)⟩

/-- C10: `generate_trace` never alters a supplied entry — for well-formed
input rows, the `j`-th output column at position `i` is exactly entry `j`
of input row `i`; shaping only transposes and appends padding. -/
theorem generate_trace_preserves_entries (final_values : List (List Nat))
    (hwf : ∀ r ∈ final_values, r.length = NUM_COLUMNS) (i j : Nat)
    (hi : i < final_values.length) (hj : j < NUM_COLUMNS) :
    ((generate_trace final_values).getD j []).getD i 0
      = (final_values.getD i []).getD j 0 := by
  have h1 : (generate_trace final_values).getD j []
      = (padded_rows final_values).map fun row => row.getD j 0 := by
    rw [generate_trace_eq final_values hwf, List.getD_eq_getElem?_getD, List.getElem?_map,
      List.getElem?_range hj]
    rfl
  rw [h1, List.getD_eq_getElem?_getD, List.getElem?_map]
  simp only [padded_rows]
  rw [List.getElem?_append, if_pos hi, List.getElem?_eq_getElem hi]
  rw [List.getD_eq_getElem?_getD final_values i [], List.getElem?_eq_getElem hi]
  rfl

/-- Witness for C10: with two concrete well-formed rows, output column 11 at
position 1 returns entry 11 of input row 1. -/
theorem generate_trace_preserves_entries_witness :
    (∀ r ∈ [[0, 1, 2, 3, 4, 5, 6, 7, 8, 9, 10, 11],
        [100, 101, 102, 103, 104, 105, 106, 107, 108, 109, 110, 111]],
      r.length = NUM_COLUMNS)
    ∧ 1 < ([[0, 1, 2, 3, 4, 5, 6, 7, 8, 9, 10, 11],
        [100, 101, 102, 103, 104, 105, 106, 107, 108, 109, 110, 111]] : List (List Nat)).length
    ∧ 11 < NUM_COLUMNS
    ∧ ((generate_trace [[0, 1, 2, 3, 4, 5, 6, 7, 8, 9, 10, 11],
          [100, 101, 102, 103, 104, 105, 106, 107, 108, 109, 110, 111]]).getD 11 []).getD 1 0
        = (([[0, 1, 2, 3, 4, 5, 6, 7, 8, 9, 10, 11],
            [100, 101, 102, 103, 104, 105, 106, 107, 108, 109, 110, 111]] :
              List (List Nat)).getD 1 []).getD 11 0 :=
  ⟨by decide, by decide, by decide,
    generate_trace_preserves_entries
      [[0, 1, 2, 3, 4, 5, 6, 7, 8, 9, 10, 11],
        [100, 101, 102, 103, 104, 105, 106, 107, 108, 109, 110, 111]]
      (by decide) 1 11 (by decide) (by decide)⟩

end ZkEvm
